import Mathlib

/-!
Verification of the AVL tree container in `src/avl_tree.h` (class `avl::avl_tree`).

The embedding instantiates the template with `Key = T = Int` and
`Cmp = std::less<Int>` (the instantiation used by the repository's `main.cpp`),
so every key comparison `_comparator(a, b)` becomes `a < b` on `Int`.

Nodes (`struct Node`) carry a payload pair, a balance factor and child links;
the parent pointer of the C++ node is represented by a zipper context
(`Ctx` below), which is exactly the information the retrace functions walk.
`std::unique_ptr` ownership becomes plain structural containment.
-/

namespace AVLT

/-- A tree of `Node`s: each node holds the `_value` pair (key, value), the
`_balance_factor`, and the `_left`/`_right` children.  `leaf` is a null
child pointer. -/
inductive Tree where
  | leaf : Tree
  | node : Tree → Int → Int → Int → Tree → Tree
deriving DecidableEq, Repr

/-- In-order list of payload pairs (what iterating `begin()`…`end()` visits). -/
def inorder : Tree → List (Int × Int)
  | .leaf => []
  | .node l k v _ r => inorder l ++ (k, v) :: inorder r

/-- In-order list of keys. -/
def keys : Tree → List Int
  | .leaf => []
  | .node l k _ _ r => keys l ++ k :: keys r

/-- Height of a subtree (0 for a null pointer). -/
def heightT : Tree → Nat
  | .leaf => 0
  | .node l _ _ _ r => max (heightT l) (heightT r) + 1

/-- The `_balance_factor` field of a node (0 as a junk value on a null). -/
def bfOf : Tree → Int
  | .leaf => 0
  | .node _ _ _ bf _ => bf

/-- Key at the root of a subtree. -/
def root_key : Tree → Option Int
  | .leaf => none
  | .node _ k _ _ _ => some k

/-- `rotate_subtree_left` (avl_tree.h:211-227): the old root's right child
becomes the new subtree root; balance factors per the two branches of the
source's final `if`.  Shapes the source would dereference null on are left
unchanged (they are undefined behavior in the C++). -/
def rotate_subtree_left : Tree → Tree
  | .node l k v _ (.node rl rk rv rbf rr) =>
      if rbf = 0 then .node (.node l k v 1 rl) rk rv (-1) rr
      else .node (.node l k v 0 rl) rk rv 0 rr
  | t => t

/-- `rotate_subtree_right` (avl_tree.h:229-245), mirror of the left rotation. -/
def rotate_subtree_right : Tree → Tree
  | .node (.node ll lk lv lbf lr) k v _ r =>
      if lbf = 0 then .node ll lk lv 1 (.node lr k v (-1) r)
      else .node ll lk lv 0 (.node lr k v 0 r)
  | t => t

/-- `rotate_subtree_right_left` (avl_tree.h:247-277): double rotation for a
right-heavy root whose right child is left-heavy; the pivot is the right
child's left child, and the final balance factors follow the sign analysis
of the pivot's balance factor in the source. -/
def rotate_subtree_right_left : Tree → Tree
  | .node a k v _ (.node (.node b nk nv nbf c) ck cv _ d) =>
      if nbf = 0 then .node (.node a k v 0 b) nk nv 0 (.node c ck cv 0 d)
      else if nbf > 0 then .node (.node a k v (-1) b) nk nv 0 (.node c ck cv 0 d)
      else .node (.node a k v 0 b) nk nv 0 (.node c ck cv 1 d)
  | t => t

/-- `rotate_subtree_left_right` (avl_tree.h:279-309), mirror of right-left. -/
def rotate_subtree_left_right : Tree → Tree
  | .node (.node a ck cv _ (.node b nk nv nbf c)) k v _ d =>
      if nbf = 0 then .node (.node a ck cv 0 b) nk nv 0 (.node c k v 0 d)
      else if nbf < 0 then .node (.node a ck cv 0 b) nk nv 0 (.node c k v 1 d)
      else .node (.node a ck cv (-1) b) nk nv 0 (.node c k v 0 d)
  | t => t

/-- One step of parent context: `L k v bf sib` means the focused subtree is the
left child of a node with payload `(k, v)`, balance factor `bf`, and right
child `sib`; `R` is the mirror.  A list of these is the chain of `_parent`
pointers from a node up to the root sentinel. -/
inductive CtxE where
  | L : Int → Int → Int → Tree → CtxE
  | R : Int → Int → Int → Tree → CtxE
deriving DecidableEq, Repr

/-- Parent-pointer chain, innermost parent first; `[]` means the parent is the
root sentinel. -/
abbrev Ctx := List CtxE

/-- Rebuild the whole tree from a focused subtree and its parent chain. -/
def plug : Tree → Ctx → Tree
  | t, [] => t
  | t, .L k v bf sib :: ctx => plug (.node t k v bf sib) ctx
  | t, .R k v bf sib :: ctx => plug (.node sib k v bf t) ctx

/-- `retrace_insert` (avl_tree.h:313-346): walk from the freshly touched node
toward the sentinel.  On the side the child is on: a parent already leaning
that way rotates (single or double depending on the child's balance factor)
and stops; a parent leaning away resets to 0 and stops; a balanced parent
leans by one and the walk recurses from the parent. -/
def retrace_insert : Tree → Ctx → Tree
  | t, [] => t
  | t, .R k v bf sib :: ctx =>
      if bf > 0 then
        plug (if bfOf t ≥ 0 then rotate_subtree_left (.node sib k v bf t)
              else rotate_subtree_right_left (.node sib k v bf t)) ctx
      else if bf < 0 then plug (.node sib k v 0 t) ctx
      else retrace_insert (.node sib k v (bf + 1) t) ctx
  | t, .L k v bf sib :: ctx =>
      if bf < 0 then
        plug (if bfOf t ≤ 0 then rotate_subtree_right (.node t k v bf sib)
              else rotate_subtree_left_right (.node t k v bf sib)) ctx
      else if bf > 0 then plug (.node t k v 0 sib) ctx
      else retrace_insert (.node t k v (bf - 1) sib) ctx

/-- `retrace_erase` (avl_tree.h:350-383): walk from the to-be-erased node's
slot toward the sentinel.  Note that in the source every rotation branch
falls through and returns: after a rotation the walk stops unconditionally. -/
def retrace_erase : Tree → Ctx → Tree
  | t, [] => t
  | t, .L k v bf sib :: ctx =>
      if bf > 0 then
        plug (if bfOf sib < 0 then rotate_subtree_right_left (.node t k v bf sib)
              else rotate_subtree_left (.node t k v bf sib)) ctx
      else if bf = 0 then plug (.node t k v 1 sib) ctx
      else retrace_erase (.node t k v 0 sib) ctx
  | t, .R k v bf sib :: ctx =>
      if bf < 0 then
        plug (if bfOf sib > 0 then rotate_subtree_left_right (.node sib k v bf t)
              else rotate_subtree_right (.node sib k v bf t)) ctx
      else if bf = 0 then plug (.node sib k v (-1) t) ctx
      else retrace_erase (.node sib k v 0 t) ctx

/-- Modelled from the spec: the post-deletion retrace of §4.5, which after a
rotation "continues the walk upward from the rotated subtree's new root"
instead of stopping.  This definition exists only to be compared with
`retrace_erase`, which is translated from the source and stops after every
rotation. -/
def retrace_erase_spec : Tree → Ctx → Tree
  | t, [] => t
  | t, .L k v bf sib :: ctx =>
      if bf > 0 then
        retrace_erase_spec (if bfOf sib < 0 then rotate_subtree_right_left (.node t k v bf sib)
              else rotate_subtree_left (.node t k v bf sib)) ctx
      else if bf = 0 then plug (.node t k v 1 sib) ctx
      else retrace_erase_spec (.node t k v 0 sib) ctx
  | t, .R k v bf sib :: ctx =>
      if bf < 0 then
        retrace_erase_spec (if bfOf sib > 0 then rotate_subtree_left_right (.node sib k v bf t)
              else rotate_subtree_right (.node sib k v bf t)) ctx
      else if bf = 0 then plug (.node sib k v (-1) t) ctx
      else retrace_erase_spec (.node sib k v 0 t) ctx

/-- `find_internal` (avl_tree.h:179-188), returning the found node's key, or
`none` for the sentinel (the `end()` iterator).  The source tests
`!cmp(root, key) && !cmp(key, root)` for equivalence, `cmp(key, root)` to go
left, and goes right otherwise. -/
def find_key : Tree → Int → Option Int
  | .leaf, _ => none
  | .node l nk _ _ r, k =>
      if ¬ nk < k ∧ ¬ k < nk then some nk
      else if k < nk then find_key l k
      else find_key r k

/-- Descend to the node with the given key exactly as `find_internal` does,
but return the focused subtree together with its parent chain.  This is the
zipper counterpart of holding a `Node*` and following `_parent` pointers;
it coincides with the C++ pointer position on every search tree (all trees
the public API produces). -/
def zipperTo : Tree → Int → Ctx → Option (Tree × Ctx)
  | .leaf, _, _ => none
  | .node l nk nv nbf r, k, ctx =>
      if ¬ nk < k ∧ ¬ k < nk then some (.node l nk nv nbf r, ctx)
      else if k < nk then zipperTo l k (.L nk nv nbf r :: ctx)
      else zipperTo r k (.R nk nv nbf l :: ctx)

/-- The `_begin` cache: either the root sentinel or the (uniquely keyed) node
with the given key.  The source stores a raw pointer; after `clear()` that
pointer can dangle, which here shows up as an `atKey` value whose key is no
longer in the tree. -/
inductive BeginPtr where
  | sentinel : BeginPtr
  | atKey : Int → BeginPtr
deriving DecidableEq, Repr

/-- `insert_internal` (avl_tree.h:88-114): descend from the root; an
equivalent key returns the existing node without inserting (`false` flag);
otherwise the new node is attached at the null slot where the descent ends
(`true` flag) and the `_begin` cache moves to the new node when it was
attached as the left child of the cached node. -/
def insert_internal : Tree → Int → Int → BeginPtr → Tree × Bool × BeginPtr
  | .leaf, k, v, cache => (.node .leaf k v 0 .leaf, true, cache)
  | .node l nk nv nbf r, k, v, cache =>
      if ¬ nk < k ∧ ¬ k < nk then (.node l nk nv nbf r, false, cache)
      else if k < nk then
        if l = .leaf then
          (.node (.node .leaf k v 0 .leaf) nk nv nbf r, true,
           if cache = .atKey nk then .atKey k else cache)
        else
          (.node (insert_internal l k v cache).1 nk nv nbf r,
           (insert_internal l k v cache).2)
      else
        if r = .leaf then (.node l nk nv nbf (.node .leaf k v 0 .leaf), true, cache)
        else
          (.node l nk nv nbf (insert_internal r k v cache).1,
           (insert_internal r k v cache).2)

/-- `smallest_subtree_elt` (avl_tree.h:71-75), as the key of the leftmost
node (junk 0 on a null pointer, which the source would dereference). -/
def smallest_key : Tree → Int
  | .leaf => 0
  | .node .leaf k _ _ _ => k
  | .node (.node ll lk lv lbf lr) _ _ _ _ => smallest_key (.node ll lk lv lbf lr)

/-- Modelled from the spec: `greatest_subtree_elt` (avl_tree.h:78-82)
recurses through `largest_subtree_elt`, a function that exists nowhere in
the repository, so instantiating it cannot compile; §4.6 of the spec says
the predecessor walk "is the exact mirror using left/right swapped", which
makes the intended call the self-recursion modelled here. -/
def greatest_key : Tree → Int
  | .leaf => 0
  | .node _ k _ _ .leaf => k
  | .node _ _ _ _ (.node rl rk rv rbf rr) => greatest_key (.node rl rk rv rbf rr)

/-- Payload and balance factor of the leftmost node of a subtree: what the
node found by `smallest_subtree_elt` carries with it when `erase_internal`
swaps it into the erased node's position. -/
def leftmost_data : Tree → Int × Int × Int
  | .leaf => (0, 0, 0)
  | .node .leaf k v bf _ => (k, v, bf)
  | .node (.node ll lk lv lbf lr) _ _ _ _ => leftmost_data (.node ll lk lv lbf lr)

/-- Remove the leftmost node of a subtree, splicing its right child into its
slot: the effect of the recursive `erase_internal` call on the successor's
old position. -/
def delete_leftmost : Tree → Tree
  | .leaf => .leaf
  | .node .leaf _ _ _ r => r
  | .node (.node ll lk lv lbf lr) k v bf r =>
      .node (delete_leftmost (.node ll lk lv lbf lr)) k v bf r

/-- `erase_internal` (avl_tree.h:117-175) acting on the subtree rooted at the
node to erase: a leaf is detached; a single child is spliced into the
node's slot; with two children the node is structurally swapped with its
in-order successor (the leftmost node of the right subtree, which keeps its
own `_balance_factor` through the swap) and then removed from the
successor's old slot. -/
def erase_internal : Tree → Tree
  | .leaf => .leaf
  | .node .leaf _ _ _ .leaf => .leaf
  | .node (.node ll lk lv lbf lr) _ _ _ .leaf => .node ll lk lv lbf lr
  | .node .leaf _ _ _ (.node rl rk rv rbf rr) => .node rl rk rv rbf rr
  | .node (.node ll lk lv lbf lr) _ _ _ (.node rl rk rv rbf rr) =>
      let s := leftmost_data (.node rl rk rv rbf rr)
      .node (.node ll lk lv lbf lr) s.1 s.2.1 s.2.2
        (delete_leftmost (.node rl rk rv rbf rr))

/-- First ancestor in the parent chain reached through a left-child link:
where the successor walk of `Iterator::next` (avl_tree.h:425-433) lands
(`none` is the sentinel, i.e. `end()`). -/
def upLeft : Ctx → Option Int
  | [] => none
  | .L k _ _ _ :: _ => some k
  | .R _ _ _ _ :: ctx => upLeft ctx

/-- First ancestor in the parent chain reached through a right-child link:
where the predecessor walk of `Iterator::prev` (avl_tree.h:436-444) lands. -/
def upRight : Ctx → Option Int
  | [] => none
  | .R k _ _ _ :: _ => some k
  | .L _ _ _ _ :: ctx => upRight ctx

/-- `Iterator::next` from the node with key `k`: into the right subtree's
leftmost node if the right child exists, otherwise up the parent chain
until arriving through a left-child link. -/
def succ_of (t : Tree) (k : Int) : Option Int :=
  match zipperTo t k [] with
  | none => none
  | some (f, ctx) =>
      match f with
      | .node _ _ _ _ (.node rl rk rv rbf rr) =>
          some (smallest_key (.node rl rk rv rbf rr))
      | _ => upLeft ctx

/-- `Iterator::prev` (with the `largest_subtree_elt` typo resolved as in
`greatest_key`): from `end()` (the sentinel, whose left child is the real
root) it descends to the greatest element; from a node with a left child it
descends to that subtree's greatest element; otherwise it walks up until
arriving through a right-child link. -/
def pred_of (t : Tree) (pos : Option Int) : Option Int :=
  match pos with
  | none =>
      match t with
      | .leaf => none
      | .node l k v bf r => some (greatest_key (.node l k v bf r))
  | some k =>
      match zipperTo t k [] with
      | none => none
      | some (f, ctx) =>
          match f with
          | .node (.node ll lk lv lbf lr) _ _ _ _ =>
              some (greatest_key (.node ll lk lv lbf lr))
          | _ => upRight ctx

/-- The tree object: the sentinel's left child (`root()`), the `_begin`
cache, and the `_size` counter. -/
structure AVLState where
  root : Tree
  begin_cache : BeginPtr
  sz : Nat
deriving DecidableEq, Repr

/-- The default-constructed tree (avl_tree.h:460): empty, `_begin` at the
sentinel, size 0. -/
def init : AVLState := ⟨.leaf, .sentinel, 0⟩

/-- `max_size()` (avl_tree.h:467): the largest `std::size_t` value. -/
def max_size : Nat := 2 ^ 64 - 1

/-- `size()` (avl_tree.h:465).  The source declares the return type `bool`,
so the counter is truncated to its truth value. -/
def size (s : AVLState) : Bool := decide (s.sz ≠ 0)

/-- The integral value the `bool` returned by `size()` converts to in a
comparison such as `size() == 3`. -/
def size_as_nat (s : AVLState) : Nat := if size s then 1 else 0

/-- `empty()` (avl_tree.h:463). -/
def emptyQ (s : AVLState) : Bool := decide (s.root = .leaf)

/-- `clear()` (avl_tree.h:471): reset the sentinel's left child and the size
counter.  The `_begin` cache is deliberately not touched, exactly as in the
source. -/
def clear (s : AVLState) : AVLState := { s with root := .leaf, sz := 0 }

/-- `emplace` (avl_tree.h:476-494) for a `(k, v)` pair: the empty tree gets
the new node as the sentinel's child; at `max_size()` the insert is
refused; otherwise `insert_internal` runs and `retrace_insert` starts from
the returned node's slot — even when the key already existed and nothing
was inserted — and the result flag is unconditionally `true`.  The returned
iterator is the node with key `k` (`none` is `end()`). -/
def emplace (s : AVLState) (k v : Int) : AVLState × Option Int × Bool :=
  match s.root with
  | .leaf => (⟨.node .leaf k v 0 .leaf, .atKey k, s.sz + 1⟩, some k, true)
  | .node l nk nv nbf r =>
      if s.sz = max_size then (s, none, false)
      else
        let res := insert_internal (.node l nk nv nbf r) k v s.begin_cache
        let root' := match zipperTo res.1 k [] with
          | some (f, ctx) => retrace_insert f ctx
          | none => res.1
        (⟨root', res.2.2, s.sz + (if res.2.1 then 1 else 0)⟩, some k, true)

/-- `try_emplace` (avl_tree.h:500-525): an existing key returns its iterator
with flag `true` (as written in the source) and mutates nothing; otherwise
the flow is the same as `emplace`. -/
def try_emplace (s : AVLState) (k v : Int) : AVLState × Option Int × Bool :=
  match find_key s.root k with
  | some fk => (s, some fk, true)
  | none =>
      match s.root with
      | .leaf => (⟨.node .leaf k v 0 .leaf, .atKey k, s.sz + 1⟩, some k, true)
      | .node l nk nv nbf r =>
          if s.sz = max_size then (s, none, false)
          else
            let res := insert_internal (.node l nk nv nbf r) k v s.begin_cache
            let root' := match zipperTo res.1 k [] with
              | some (f, ctx) => retrace_insert f ctx
              | none => res.1
            (⟨root', res.2.2, s.sz + (if res.2.1 then 1 else 0)⟩, some k, true)

/-- Overwrite the value stored at key `k` (assignment through the reference
returned by `operator[]`). -/
def set_val : Tree → Int → Int → Tree
  | .leaf, _, _ => .leaf
  | .node l nk nv nbf r, k, v =>
      if ¬ nk < k ∧ ¬ k < nk then .node l nk v nbf r
      else if k < nk then .node (set_val l k v) nk nv nbf r
      else .node l nk nv nbf (set_val r k v)

/-- `tree[k] = v` through `operator[]` (avl_tree.h:602-608): an existing key
hands out its value slot; an absent key is first emplaced with the
value-initialized `int()` (that is, 0) and then assigned. -/
def index_assign (s : AVLState) (k v : Int) : AVLState :=
  match find_key s.root k with
  | some _ => { s with root := set_val s.root k v }
  | none =>
      let s' := (emplace s k 0).1
      { s' with root := set_val s'.root k v }

/-- The `_begin` cache update performed inside `erase_internal`: a detached
leaf that was the cached node moves the cache to its parent (the sentinel
when the leaf was the root); a one-child node that is its parent's left
child (or the root) and was the cached node moves the cache to the spliced
child's root; the two-children case changes nothing (the recursive call's
node is never the leftmost). -/
def erase_cache (cache : BeginPtr) (k : Int) : Tree → Ctx → BeginPtr
  | .node .leaf _ _ _ .leaf, ctx =>
      if cache = .atKey k then
        match ctx with
        | [] => .sentinel
        | .L pk _ _ _ :: _ => .atKey pk
        | .R _ _ _ _ :: _ => cache
      else cache
  | .node .leaf _ _ _ (.node _ rk _ _ _), ctx =>
      (match ctx with
       | [] => if cache = .atKey k then .atKey rk else cache
       | .L _ _ _ _ :: _ => if cache = .atKey k then .atKey rk else cache
       | .R _ _ _ _ :: _ => cache)
  | .node (.node _ lk _ _ _) _ _ _ .leaf, ctx =>
      (match ctx with
       | [] => if cache = .atKey k then .atKey lk else cache
       | .L _ _ _ _ :: _ => if cache = .atKey k then .atKey lk else cache
       | .R _ _ _ _ :: _ => cache)
  | _, _ => cache

/-- `erase` (avl_tree.h:547-564), parameterized by the retrace used so the
source's behavior and the spec's §4.5 description can be compared.  The
`end()` position throws before any mutation; otherwise the return iterator
is computed by the successor walk first, then the retrace runs with the
node still in place, then `erase_internal` removes it, `_size` drops, and
an emptied tree resets the `_begin` cache to the sentinel. -/
def erase_with (retr : Tree → Ctx → Tree) (s : AVLState) (pos : Option Int) :
    Except Unit (Option Int) × AVLState :=
  match pos with
  | none => (.error (), s)
  | some k =>
      let ret := succ_of s.root k
      let t1 := match zipperTo s.root k [] with
        | some (f, ctx) => retr f ctx
        | none => s.root
      match zipperTo t1 k [] with
      | none => (.ok ret, s)
      | some (f, ctx) =>
          let sz' := s.sz - 1
          let cache' := erase_cache s.begin_cache k f ctx
          (.ok ret,
           ⟨plug (erase_internal f) ctx,
            if sz' = 0 then .sentinel else cache', sz'⟩)

/-- `erase` exactly as the source behaves. -/
def erase (s : AVLState) (pos : Option Int) : Except Unit (Option Int) × AVLState :=
  erase_with retrace_erase s pos

/-- `erase` with the spec's §4.5 post-deletion retrace substituted. -/
def erase_spec (s : AVLState) (pos : Option Int) : Except Unit (Option Int) × AVLState :=
  erase_with retrace_erase_spec s pos

/-- `operator==` (avl_tree.h:571-581): a `size()` mismatch (of the truncated
`bool` values) answers `false`; otherwise payloads are compared pairwise
while the left iterator has not reached `cend()`.  When the right sequence
is shorter the source increments an iterator past `end()` (undefined
behavior); that branch is modelled as `false` and never reached below. -/
def payload_prefix_cmp : List (Int × Int) → List (Int × Int) → Bool
  | [], _ => true
  | a :: as, b :: bs => a = b && payload_prefix_cmp as bs
  | _ :: _, [] => false

/-- `operator==` on two trees. -/
def tree_eq (l r : AVLState) : Bool :=
  if size l = size r then payload_prefix_cmp (inorder l.root) (inorder r.root)
  else false

/-- The structural invariant of avl_tree.h:31 and spec §3: every stored
balance factor lies in `[-1, 1]` and equals the right-minus-left height
difference. -/
def bf_invariant : Tree → Bool
  | .leaf => true
  | .node l _ _ bf r =>
      decide (-1 ≤ bf ∧ bf ≤ 1) &&
      decide (bf = (heightT r : Int) - (heightT l : Int)) &&
      bf_invariant l && bf_invariant r

/-- Stored balance factor of the node with key `k`. -/
def bf_at : Tree → Int → Option Int
  | .leaf, _ => none
  | .node l nk _ bf r, k =>
      if ¬ nk < k ∧ ¬ k < nk then some bf
      else if k < nk then bf_at l k
      else bf_at r k

/-- Actual right-minus-left height difference at the node with key `k`. -/
def hdiff_at : Tree → Int → Option Int
  | .leaf, _ => none
  | .node l nk _ _ r, k =>
      if ¬ nk < k ∧ ¬ k < nk then some ((heightT r : Int) - (heightT l : Int))
      else if k < nk then hdiff_at l k
      else hdiff_at r k

/-- Value stored at key `k` (what dereferencing `find(k)` yields). -/
def val_at : Tree → Int → Option Int
  | .leaf, _ => none
  | .node l nk nv _ r, k =>
      if ¬ nk < k ∧ ¬ k < nk then some nv
      else if k < nk then val_at l k
      else val_at r k

/-- The element following the first occurrence of `k` in a list: the in-order
successor when the list is the sorted key sequence. -/
def listNext : List Int → Int → Option Int
  | [], _ => none
  | a :: as, k => if a = k then as.head? else listNext as k

/-- Tree states reachable from a default-constructed tree by inserts and by
erases through valid (non-end) iterator positions. -/
inductive Reach : AVLState → Prop where
  | init : Reach init
  | ins (k v : Int) {s : AVLState} : Reach s → Reach (emplace s k v).1
  | del (k : Int) {s : AVLState} : Reach s → k ∈ keys s.root →
      Reach (erase s (some k)).2

/-- The tree after `insert({5,5}); insert({8,8})`. -/
def dupS2 : AVLState := (emplace (emplace init 5 5).1 8 8).1

/-- The tree after `insert({6,7}); insert({8,9}); tree[2] = 5` (the §8
scenario behind claim C4). -/
def scenarioC4 : AVLState := index_assign (emplace (emplace init 6 7).1 8 9).1 2 5

/-- The tree after `insert({1,1}); clear()`. -/
def scenarioC5 : AVLState := clear (emplace init 1 1).1

/-- The tree after inserting keys 10, 2, 20, 1, 4, 15, 25, 5 (each with the
key as value): a valid AVL tree in which erasing key 1 forces a rotation at
node 2 that shrinks that subtree's height. -/
def eraseTree8 : AVLState :=
  (emplace (emplace (emplace (emplace (emplace (emplace (emplace (emplace
    init 10 10).1 2 2).1 20 20).1 1 1).1 4 4).1 15 15).1 25 25).1 5 5).1

/-- The tree after inserting keys 5, 8, 3, 4, 2, 1 in that order (the §8
scenario behind claim C9). -/
def insertSeqC9 : AVLState :=
  (emplace (emplace (emplace (emplace (emplace (emplace
    init 5 5).1 8 8).1 3 3).1 4 4).1 2 2).1 1 1).1

/-- A two-element tree holding (1,1), (2,2). -/
def eqL : AVLState := (emplace (emplace init 1 1).1 2 2).1

/-- A three-element tree holding (1,1), (2,2), (3,3). -/
def eqR : AVLState := (emplace (emplace (emplace init 1 1).1 2 2).1 3 3).1

/-- Keys lying strictly to the right of a focused subtree, read off its parent
chain: each ancestor the focus hangs left of contributes its own key and its
right subtree. -/
def ctxR : Ctx → List Int
  | [] => []
  | .L k _ _ sib :: ctx => k :: (keys sib ++ ctxR ctx)
  | .R _ _ _ _ :: ctx => ctxR ctx

/-- Keys lying strictly to the left of a focused subtree, read off its parent
chain. -/
def ctxL : Ctx → List Int
  | [] => []
  | .L _ _ _ _ :: ctx => ctxL ctx
  | .R k _ _ sib :: ctx => ctxL ctx ++ (keys sib ++ [k])

/-- The element preceding the first occurrence of `k` (scanning from the
right): the in-order predecessor when the list is the sorted key sequence. -/
def listPrev (l : List Int) (k : Int) : Option Int := listNext l.reverse k

end AVLT

namespace AVLT

theorem keys_rotate_left : ∀ t, keys (rotate_subtree_left t) = keys t
  | .leaf => rfl
  | .node _ _ _ _ .leaf => rfl
  | .node l k v bf (.node rl rk rv rbf rr) => by
      simp only [rotate_subtree_left]
      split <;> simp [keys, List.append_assoc]

theorem keys_rotate_right : ∀ t, keys (rotate_subtree_right t) = keys t
  | .leaf => rfl
  | .node .leaf _ _ _ _ => rfl
  | .node (.node ll lk lv lbf lr) k v bf r => by
      simp only [rotate_subtree_right]
      split <;> simp [keys, List.append_assoc]

theorem keys_rotate_right_left : ∀ t, keys (rotate_subtree_right_left t) = keys t
  | .leaf => rfl
  | .node _ _ _ _ .leaf => rfl
  | .node _ _ _ _ (.node .leaf _ _ _ _) => rfl
  | .node a k v bf (.node (.node b nk nv nbf c) ck cv cbf d) => by
      simp only [rotate_subtree_right_left]
      split <;> [skip; split] <;> simp [keys, List.append_assoc]

theorem keys_rotate_left_right : ∀ t, keys (rotate_subtree_left_right t) = keys t
  | .leaf => rfl
  | .node .leaf _ _ _ _ => rfl
  | .node (.node _ _ _ _ .leaf) _ _ _ _ => rfl
  | .node (.node a ck cv cbf (.node b nk nv nbf c)) k v bf d => by
      simp only [rotate_subtree_left_right]
      split <;> [skip; split] <;> simp [keys, List.append_assoc]

theorem keys_plug_congr : ∀ (ctx : Ctx) (t1 t2 : Tree), keys t1 = keys t2 →
    keys (plug t1 ctx) = keys (plug t2 ctx)
  | [], _, _, h => h
  | .L k v bf sib :: ctx, t1, t2, h => keys_plug_congr ctx _ _ (by simp [keys, h])
  | .R k v bf sib :: ctx, t1, t2, h => keys_plug_congr ctx _ _ (by simp [keys, h])

theorem keys_retrace_insert : ∀ (ctx : Ctx) (t : Tree),
    keys (retrace_insert t ctx) = keys (plug t ctx)
  | [], t => rfl
  | .R k v bf sib :: ctx, t => by
      show _ = keys (plug (.node sib k v bf t) ctx)
      simp only [retrace_insert]
      by_cases h1 : bf > 0
      · rw [if_pos h1]
        by_cases h2 : bfOf t ≥ 0
        · rw [if_pos h2]; exact keys_plug_congr ctx _ _ (keys_rotate_left _)
        · rw [if_neg h2]; exact keys_plug_congr ctx _ _ (keys_rotate_right_left _)
      · rw [if_neg h1]
        by_cases h2 : bf < 0
        · rw [if_pos h2]; exact keys_plug_congr ctx _ _ (by simp [keys])
        · rw [if_neg h2, keys_retrace_insert ctx]
          exact keys_plug_congr ctx _ _ (by simp [keys])
  | .L k v bf sib :: ctx, t => by
      show _ = keys (plug (.node t k v bf sib) ctx)
      simp only [retrace_insert]
      by_cases h1 : bf < 0
      · rw [if_pos h1]
        by_cases h2 : bfOf t ≤ 0
        · rw [if_pos h2]; exact keys_plug_congr ctx _ _ (keys_rotate_right _)
        · rw [if_neg h2]; exact keys_plug_congr ctx _ _ (keys_rotate_left_right _)
      · rw [if_neg h1]
        by_cases h2 : bf > 0
        · rw [if_pos h2]; exact keys_plug_congr ctx _ _ (by simp [keys])
        · rw [if_neg h2, keys_retrace_insert ctx]
          exact keys_plug_congr ctx _ _ (by simp [keys])

theorem keys_retrace_erase : ∀ (ctx : Ctx) (t : Tree),
    keys (retrace_erase t ctx) = keys (plug t ctx)
  | [], t => rfl
  | .L k v bf sib :: ctx, t => by
      show _ = keys (plug (.node t k v bf sib) ctx)
      simp only [retrace_erase]
      by_cases h1 : bf > 0
      · rw [if_pos h1]
        by_cases h2 : bfOf sib < 0
        · rw [if_pos h2]; exact keys_plug_congr ctx _ _ (keys_rotate_right_left _)
        · rw [if_neg h2]; exact keys_plug_congr ctx _ _ (keys_rotate_left _)
      · rw [if_neg h1]
        by_cases h2 : bf = 0
        · rw [if_pos h2]; exact keys_plug_congr ctx _ _ (by simp [keys])
        · rw [if_neg h2, keys_retrace_erase ctx]
          exact keys_plug_congr ctx _ _ (by simp [keys])
  | .R k v bf sib :: ctx, t => by
      show _ = keys (plug (.node sib k v bf t) ctx)
      simp only [retrace_erase]
      by_cases h1 : bf < 0
      · rw [if_pos h1]
        by_cases h2 : bfOf sib > 0
        · rw [if_pos h2]; exact keys_plug_congr ctx _ _ (keys_rotate_left_right _)
        · rw [if_neg h2]; exact keys_plug_congr ctx _ _ (keys_rotate_right _)
      · rw [if_neg h1]
        by_cases h2 : bf = 0
        · rw [if_pos h2]; exact keys_plug_congr ctx _ _ (by simp [keys])
        · rw [if_neg h2, keys_retrace_erase ctx]
          exact keys_plug_congr ctx _ _ (by simp [keys])

theorem zipperTo_plug : ∀ (t : Tree) (k : Int) (ctx : Ctx) (f : Tree) (c : Ctx),
    zipperTo t k ctx = some (f, c) → plug f c = plug t ctx
  | .leaf, k, ctx, f, c => by simp [zipperTo]
  | .node l nk nv nbf r, k, ctx, f, c => by
      simp only [zipperTo]
      by_cases h1 : ¬ nk < k ∧ ¬ k < nk
      · rw [if_pos h1]
        intro h
        simp only [Option.some.injEq, Prod.mk.injEq] at h
        obtain ⟨rfl, rfl⟩ := h
        rfl
      · rw [if_neg h1]
        by_cases h2 : k < nk
        · rw [if_pos h2]; exact zipperTo_plug l k _ f c
        · rw [if_neg h2]; exact zipperTo_plug r k _ f c

theorem mem_keys_insert_internal : ∀ (t : Tree) (k v : Int) (c : BeginPtr) (x : Int),
    x ∈ keys (insert_internal t k v c).1 → x ∈ keys t ∨ x = k
  | .leaf, k, v, c, x => by simp [insert_internal, keys]
  | .node l nk nv nbf r, k, v, c, x => by
      simp only [insert_internal]
      by_cases h1 : ¬ nk < k ∧ ¬ k < nk
      · rw [if_pos h1]; exact Or.inl
      · rw [if_neg h1]
        by_cases h2 : k < nk
        · rw [if_pos h2]
          cases l with
          | leaf =>
              rw [if_pos rfl]
              simp only [keys, List.mem_append, List.mem_cons]; tauto
          | node ll lk lv lbf lr =>
              rw [if_neg (by simp)]
              intro h
              simp only [keys, List.mem_append, List.mem_cons] at h ⊢
              rcases h with h | h | h
              · have h' := mem_keys_insert_internal _ k v c x h
                simp only [keys, List.mem_append, List.mem_cons] at h'
                tauto
              · tauto
              · tauto
        · rw [if_neg h2]
          cases r with
          | leaf =>
              rw [if_pos rfl]
              simp only [keys, List.mem_append, List.mem_cons]; tauto
          | node rl rk rv rbf rr =>
              rw [if_neg (by simp)]
              intro h
              simp only [keys, List.mem_append, List.mem_cons] at h ⊢
              rcases h with h | h | h
              · tauto
              · tauto
              · have h' := mem_keys_insert_internal _ k v c x h
                simp only [keys, List.mem_append, List.mem_cons] at h'
                tauto

theorem pairwise_keys_insert_internal : ∀ (t : Tree) (k v : Int) (c : BeginPtr),
    (keys t).Pairwise (· < ·) → (keys (insert_internal t k v c).1).Pairwise (· < ·)
  | .leaf, k, v, c, h => by simp [insert_internal, keys]
  | .node l nk nv nbf r, k, v, c, h => by
      simp only [insert_internal]
      by_cases h1 : ¬ nk < k ∧ ¬ k < nk
      · rw [if_pos h1]; exact h
      · rw [if_neg h1]
        have hkeys := h
        rw [keys, List.pairwise_append] at hkeys
        obtain ⟨hl, hnr, hcross⟩ := hkeys
        rw [List.pairwise_cons] at hnr
        obtain ⟨hnk_r, hr⟩ := hnr
        by_cases h2 : k < nk
        · rw [if_pos h2]
          cases l with
          | leaf =>
              rw [if_pos rfl]
              simp only [keys, List.nil_append]
              refine List.Pairwise.cons ?_ (List.Pairwise.cons hnk_r hr)
              intro b hb
              rcases List.mem_cons.1 hb with rfl | hb
              · exact h2
              · exact lt_trans h2 (hnk_r b hb)
          | node ll lk lv lbf lr =>
              rw [if_neg (by simp)]
              simp only [keys]
              rw [List.pairwise_append]
              refine ⟨pairwise_keys_insert_internal _ k v c hl,
                      List.Pairwise.cons hnk_r hr, ?_⟩
              intro a ha b hb
              rcases mem_keys_insert_internal _ k v c a ha with ha' | rfl
              · exact hcross a ha' b hb
              · rcases List.mem_cons.1 hb with rfl | hb
                · exact h2
                · exact lt_trans h2 (hnk_r b hb)
        · rw [if_neg h2]
          have h3 : nk < k := by by_contra hc; exact h1 ⟨hc, h2⟩
          cases r with
          | leaf =>
              rw [if_pos rfl]
              simp only [keys, List.nil_append]
              rw [List.pairwise_append]
              refine ⟨hl, List.Pairwise.cons ?_ (List.pairwise_singleton _ _), ?_⟩
              · intro b hb
                rcases List.mem_cons.1 hb with rfl | hb
                · exact h3
                · exact absurd hb (List.not_mem_nil b)
              · intro a ha b hb
                have hank : a < nk := hcross a ha nk (List.mem_cons_self nk _)
                rcases List.mem_cons.1 hb with h4 | h4
                · rw [h4]; exact hank
                · rcases List.mem_cons.1 h4 with h5 | h5
                  · rw [h5]; exact lt_trans hank h3
                  · exact absurd h5 (List.not_mem_nil b)
          | node rl rk rv rbf rr =>
              rw [if_neg (by simp)]
              simp only [keys]
              rw [List.pairwise_append]
              refine ⟨hl, List.Pairwise.cons ?_ (pairwise_keys_insert_internal _ k v c hr), ?_⟩
              · intro b hb
                rcases mem_keys_insert_internal _ k v c b hb with hb' | hb'
                · exact hnk_r b hb'
                · rw [hb']; exact h3
              · intro a ha b hb
                have hank : a < nk := hcross a ha nk (List.mem_cons_self nk _)
                rcases List.mem_cons.1 hb with h4 | h4
                · rw [h4]; exact hank
                · rcases mem_keys_insert_internal _ k v c b h4 with hb' | hb'
                  · exact hcross a ha b (List.mem_cons_of_mem nk hb')
                  · rw [hb']; exact lt_trans hank h3

theorem keys_emplace_pairwise : ∀ (t : Tree) (cache : BeginPtr) (n : Nat) (k v : Int),
    (keys t).Pairwise (· < ·) →
    (keys (emplace ⟨t, cache, n⟩ k v).1.root).Pairwise (· < ·)
  | .leaf, cache, n, k, v, h => by simp [emplace, keys]
  | .node l nk nv nbf r, cache, n, k, v, h => by
      simp only [emplace]
      by_cases hm : n = max_size
      · rw [if_pos hm]; exact h
      · rw [if_neg hm]
        rcases hz : zipperTo (insert_internal (.node l nk nv nbf r) k v cache).1 k []
          with _ | ⟨f, c⟩
        · simp only [hz]
          exact pairwise_keys_insert_internal _ k v cache h
        · simp only [hz]
          rw [keys_retrace_insert c f, zipperTo_plug _ k [] f c hz]
          exact pairwise_keys_insert_internal _ k v cache h

theorem keys_leftmost : ∀ (l : Tree) (k v bf : Int) (r : Tree),
    keys (Tree.node l k v bf r) =
      (leftmost_data (Tree.node l k v bf r)).1 ::
        keys (delete_leftmost (Tree.node l k v bf r))
  | .leaf, k, v, bf, r => by simp [keys, leftmost_data, delete_leftmost]
  | .node ll lk lv lbf lr, k, v, bf, r => by
      have ih := keys_leftmost ll lk lv lbf lr
      show keys (.node ll lk lv lbf lr) ++ k :: keys r =
        (leftmost_data (.node ll lk lv lbf lr)).1 ::
          (keys (delete_leftmost (.node ll lk lv lbf lr)) ++ k :: keys r)
      rw [ih, List.cons_append]

theorem keys_erase_internal_sublist : ∀ f : Tree,
    List.Sublist (keys (erase_internal f)) (keys f)
  | .leaf => List.Sublist.refl _
  | .node .leaf k v bf .leaf => by simp [erase_internal, keys]
  | .node (.node ll lk lv lbf lr) k v bf .leaf => by
      simp only [erase_internal, keys]
      exact List.sublist_append_left _ _
  | .node .leaf k v bf (.node rl rk rv rbf rr) => by
      simp only [erase_internal, keys, List.nil_append]
      exact List.sublist_cons_self k _
  | .node (.node ll lk lv lbf lr) k v bf (.node rl rk rv rbf rr) => by
      have hr := keys_leftmost rl rk rv rbf rr
      show List.Sublist
        (keys (.node ll lk lv lbf lr) ++
          (leftmost_data (.node rl rk rv rbf rr)).1 ::
            keys (delete_leftmost (.node rl rk rv rbf rr)))
        (keys (.node ll lk lv lbf lr) ++ k :: keys (.node rl rk rv rbf rr))
      rw [hr]
      exact List.Sublist.append_left (List.sublist_cons_self k _) _

theorem keys_plug_sublist : ∀ (ctx : Ctx) (t1 t2 : Tree),
    List.Sublist (keys t1) (keys t2) →
    List.Sublist (keys (plug t1 ctx)) (keys (plug t2 ctx))
  | [], _, _, h => h
  | .L k v bf sib :: ctx, t1, t2, h =>
      keys_plug_sublist ctx _ _ (by
        simp only [keys]
        exact h.append (List.Sublist.refl _))
  | .R k v bf sib :: ctx, t1, t2, h =>
      keys_plug_sublist ctx _ _ (by
        simp only [keys]
        exact List.Sublist.append_left (List.Sublist.cons₂ k h) _)

theorem keys_erase_state_pairwise : ∀ (t : Tree) (cache : BeginPtr) (n : Nat) (k : Int),
    (keys t).Pairwise (· < ·) →
    (keys (erase ⟨t, cache, n⟩ (some k)).2.root).Pairwise (· < ·) := by
  intro t cache n k h
  simp only [erase, erase_with]
  rcases hz1 : zipperTo t k [] with _ | ⟨f0, c0⟩
  · simp only [hz1]
    exact h
  · simp only [hz1]
    rcases hz2 : zipperTo (retrace_erase f0 c0) k [] with _ | ⟨f, c⟩
    · simp only [hz2]
      exact h
    · simp only [hz2]
      have hs1 : List.Sublist (keys (plug (erase_internal f) c)) (keys (plug f c)) :=
        keys_plug_sublist c _ _ (keys_erase_internal_sublist f)
      have he : plug f c = retrace_erase f0 c0 := zipperTo_plug _ k [] f c hz2
      have hk : keys (retrace_erase f0 c0) = keys t := by
        rw [keys_retrace_erase c0 f0, zipperTo_plug t k [] f0 c0 hz1]
        rfl
      rw [he, hk] at hs1
      exact h.sublist hs1

theorem reach_sorted : ∀ s : AVLState, Reach s → (keys s.root).Pairwise (· < ·) := by
  intro s h
  induction h with
  | init => simp [init, keys]
  | ins k v hr ih =>
      rename_i s'
      obtain ⟨t, c, n⟩ := s'
      exact keys_emplace_pairwise t c n k v ih
  | del k hr hm ih =>
      rename_i s'
      obtain ⟨t, c, n⟩ := s'
      exact keys_erase_state_pairwise t c n k ih

theorem keys_ne_nil (l : Tree) (k v bf : Int) (r : Tree) :
    keys (Tree.node l k v bf r) ≠ [] := by
  simp [keys]

theorem head_append_left {A : List Int} (B : List Int) (h : A ≠ []) :
    (A ++ B).head? = A.head? := by
  cases A with
  | nil => exact absurd rfl h
  | cons a A => simp

theorem keys_plug_decomp : ∀ (ctx : Ctx) (t : Tree),
    keys (plug t ctx) = ctxL ctx ++ (keys t ++ ctxR ctx)
  | [], t => by simp [ctxL, ctxR, plug]
  | .L k v bf sib :: ctx, t => by
      show keys (plug (.node t k v bf sib) ctx) = _
      rw [keys_plug_decomp ctx]
      simp [ctxL, ctxR, keys, List.append_assoc]
  | .R k v bf sib :: ctx, t => by
      show keys (plug (.node sib k v bf t) ctx) = _
      rw [keys_plug_decomp ctx]
      simp [ctxL, ctxR, keys, List.append_assoc]

theorem upLeft_eq_head : ∀ ctx : Ctx, upLeft ctx = (ctxR ctx).head?
  | [] => rfl
  | .L k v bf sib :: ctx => rfl
  | .R k v bf sib :: ctx => upLeft_eq_head ctx

theorem upRight_eq_getLast : ∀ ctx : Ctx, upRight ctx = (ctxL ctx).getLast?
  | [] => rfl
  | .L k v bf sib :: ctx => upRight_eq_getLast ctx
  | .R k v bf sib :: ctx => by
      show some k = (ctxL ctx ++ (keys sib ++ [k])).getLast?
      rw [List.getLast?_append_of_ne_nil _ (by simp)]
      simp

theorem smallest_key_eq_leftmost : ∀ t : Tree, smallest_key t = (leftmost_data t).1
  | .leaf => rfl
  | .node .leaf k v bf r => rfl
  | .node (.node ll lk lv lbf lr) k v bf r =>
      smallest_key_eq_leftmost (.node ll lk lv lbf lr)

theorem keys_head_smallest (l : Tree) (k v bf : Int) (r : Tree) :
    (keys (Tree.node l k v bf r)).head? = some (smallest_key (Tree.node l k v bf r)) := by
  rw [keys_leftmost l k v bf r]
  simp [smallest_key_eq_leftmost]

theorem keys_getLast_greatest : ∀ (l : Tree) (k v bf : Int) (r : Tree),
    (keys (Tree.node l k v bf r)).getLast? = some (greatest_key (Tree.node l k v bf r))
  | l, k, v, bf, .leaf => by simp [keys, greatest_key]
  | l, k, v, bf, .node rl rk rv rbf rr => by
      have ih := keys_getLast_greatest rl rk rv rbf rr
      show (keys l ++ k :: keys (.node rl rk rv rbf rr)).getLast? =
        some (greatest_key (.node rl rk rv rbf rr))
      rw [List.getLast?_append_of_ne_nil _ (by simp),
          show (k :: keys (.node rl rk rv rbf rr)) = [k] ++ keys (.node rl rk rv rbf rr)
            from rfl,
          List.getLast?_append_of_ne_nil _ (keys_ne_nil rl rk rv rbf rr)]
      exact ih

theorem listNext_append : ∀ (A B : List Int) (k : Int), k ∉ A →
    listNext (A ++ k :: B) k = B.head?
  | [], B, k, h => by simp [listNext]
  | a :: A, B, k, h => by
      have ha : a ≠ k := fun hc => h (hc ▸ List.mem_cons_self a A)
      simp only [List.cons_append, listNext, if_neg ha]
      exact listNext_append A B k (fun hc => h (List.mem_cons_of_mem a hc))

theorem not_mem_left_of_pairwise {A B : List Int} {k : Int}
    (h : (A ++ k :: B).Pairwise (· < ·)) : k ∉ A := by
  rw [List.pairwise_append] at h
  intro hk
  exact lt_irrefl k (h.2.2 k hk k (List.mem_cons_self k B))

theorem not_mem_right_of_pairwise {A B : List Int} {k : Int}
    (h : (A ++ k :: B).Pairwise (· < ·)) : k ∉ B := by
  rw [List.pairwise_append, List.pairwise_cons] at h
  intro hk
  exact lt_irrefl k (h.2.1.1 k hk)

theorem zipperTo_found : ∀ (t : Tree) (k : Int) (ctx : Ctx),
    (keys t).Pairwise (· < ·) → k ∈ keys t →
    ∃ fl fv fbf fr c, zipperTo t k ctx = some (.node fl k fv fbf fr, c)
  | .leaf, k, ctx, h, hm => absurd hm (by simp [keys])
  | .node l nk nv nbf r, k, ctx, h, hm => by
      rw [keys, List.pairwise_append] at h
      obtain ⟨hl, hnr, hcross⟩ := h
      rw [List.pairwise_cons] at hnr
      obtain ⟨hnk_r, hr⟩ := hnr
      simp only [keys, List.mem_append, List.mem_cons] at hm
      simp only [zipperTo]
      by_cases h1 : ¬ nk < k ∧ ¬ k < nk
      · rw [if_pos h1]
        obtain ⟨ha, hb⟩ := h1
        have hkk : nk = k := by omega
        subst hkk
        exact ⟨l, nv, nbf, r, ctx, rfl⟩
      · rw [if_neg h1]
        by_cases h2 : k < nk
        · rw [if_pos h2]
          apply zipperTo_found l k _ hl
          rcases hm with hm | hm | hm
          · exact hm
          · omega
          · exact absurd (hnk_r k hm) (by omega)
        · rw [if_neg h2]
          have h3 : nk < k := by
            by_contra hc
            exact h1 ⟨hc, h2⟩
          apply zipperTo_found r k _ hr
          rcases hm with hm | hm | hm
          · exact absurd (hcross k hm nk (List.mem_cons_self nk _)) (by omega)
          · omega
          · exact hm

theorem keys_decomp_of_zipper {t : Tree} {k : Int} {fl fr : Tree} {fv fbf : Int} {c : Ctx}
    (hz : zipperTo t k [] = some (.node fl k fv fbf fr, c)) :
    keys t = (ctxL c ++ keys fl) ++ (k :: (keys fr ++ ctxR c)) := by
  have hplug : plug (.node fl k fv fbf fr) c = t := zipperTo_plug t k [] _ _ hz
  conv_lhs => rw [← hplug]
  rw [keys_plug_decomp]
  simp [keys, List.append_assoc]

theorem succ_of_eq_listNext (t : Tree) (k : Int)
    (h : (keys t).Pairwise (· < ·)) (hm : k ∈ keys t) :
    succ_of t k = listNext (keys t) k := by
  obtain ⟨fl, fv, fbf, fr, c, hz⟩ := zipperTo_found t k [] h hm
  have hre := keys_decomp_of_zipper hz
  have h' := h
  rw [hre] at h'
  have hkA : k ∉ ctxL c ++ keys fl := not_mem_left_of_pairwise h'
  rw [hre, listNext_append _ _ k hkA]
  simp only [succ_of, hz]
  cases fr with
  | leaf => simp [keys, upLeft_eq_head c]
  | node rl rk rv rbf rr =>
      rw [head_append_left _ (keys_ne_nil rl rk rv rbf rr), keys_head_smallest]

theorem keys_erase_internal_eq : ∀ (fl : Tree) (k v bf : Int) (fr : Tree),
    keys (erase_internal (.node fl k v bf fr)) = keys fl ++ keys fr
  | .leaf, k, v, bf, .leaf => rfl
  | .node ll lk lv lbf lr, k, v, bf, .leaf => by
      simp [erase_internal, keys]
  | .leaf, k, v, bf, .node rl rk rv rbf rr => by
      simp [erase_internal, keys]
  | .node ll lk lv lbf lr, k, v, bf, .node rl rk rv rbf rr => by
      show keys (.node ll lk lv lbf lr) ++
          (leftmost_data (.node rl rk rv rbf rr)).1 ::
            keys (delete_leftmost (.node rl rk rv rbf rr)) =
        keys (.node ll lk lv lbf lr) ++ keys (.node rl rk rv rbf rr)
      rw [keys_leftmost rl rk rv rbf rr]

theorem erase_valid (t : Tree) (cache : BeginPtr) (n : Nat) (k : Int)
    (h : (keys t).Pairwise (· < ·)) (hm : k ∈ keys t) :
    (erase ⟨t, cache, n⟩ (some k)).1 = Except.ok (succ_of t k) ∧
    keys (erase ⟨t, cache, n⟩ (some k)).2.root = (keys t).erase k ∧
    (erase ⟨t, cache, n⟩ (some k)).2.sz = n - 1 := by
  obtain ⟨fl0, fv0, fbf0, fr0, c0, hz1⟩ := zipperTo_found t k [] h hm
  have hk1 : keys (retrace_erase (.node fl0 k fv0 fbf0 fr0) c0) = keys t := by
    rw [keys_retrace_erase, zipperTo_plug t k [] _ _ hz1]
    rfl
  have h1' : (keys (retrace_erase (.node fl0 k fv0 fbf0 fr0) c0)).Pairwise (· < ·) := by
    rw [hk1]; exact h
  have hm1 : k ∈ keys (retrace_erase (.node fl0 k fv0 fbf0 fr0) c0) := by
    rw [hk1]; exact hm
  obtain ⟨fl, fv, fbf, fr, c, hz2⟩ :=
    zipperTo_found (retrace_erase (.node fl0 k fv0 fbf0 fr0) c0) k [] h1' hm1
  have hre : keys (retrace_erase (.node fl0 k fv0 fbf0 fr0) c0) =
      (ctxL c ++ keys fl) ++ (k :: (keys fr ++ ctxR c)) := keys_decomp_of_zipper hz2
  have h2' := h1'
  rw [hre] at h2'
  have hkA : k ∉ ctxL c ++ keys fl := not_mem_left_of_pairwise h2'
  simp only [erase, erase_with, hz1, hz2]
  refine ⟨trivial, ?_, trivial⟩
  rw [keys_plug_decomp, keys_erase_internal_eq, ← hk1, hre,
      List.erase_append_right _ hkA]
  simp [List.append_assoc]

theorem listPrev_eq (A B : List Int) (k : Int) (hB : k ∉ B) :
    listPrev (A ++ k :: B) k = A.getLast? := by
  unfold listPrev
  rw [show (A ++ k :: B).reverse = B.reverse ++ k :: A.reverse by simp]
  rw [listNext_append _ _ k (by simpa using hB)]
  exact List.head?_reverse A

theorem pred_of_eq_listPrev (t : Tree) (k : Int)
    (h : (keys t).Pairwise (· < ·)) (hm : k ∈ keys t) :
    pred_of t (some k) = listPrev (keys t) k := by
  obtain ⟨fl, fv, fbf, fr, c, hz⟩ := zipperTo_found t k [] h hm
  have hre := keys_decomp_of_zipper hz
  have h' := h
  rw [hre] at h'
  have hkB : k ∉ keys fr ++ ctxR c := not_mem_right_of_pairwise h'
  rw [hre, listPrev_eq _ _ k hkB]
  simp only [pred_of, hz]
  cases fl with
  | leaf => simp [keys, upRight_eq_getLast c]
  | node ll lk lv lbf lr =>
      rw [List.getLast?_append_of_ne_nil _ (keys_ne_nil ll lk lv lbf lr),
          keys_getLast_greatest]

theorem pred_of_end (l : Tree) (k v bf : Int) (r : Tree) :
    pred_of (.node l k v bf r) none = (keys (.node l k v bf r)).getLast? := by
  rw [keys_getLast_greatest]
  rfl

/-- Claim C1 (code_bug evidence): the state reached from the empty tree by the
public operations `insert({5,5}); insert({8,8}); insert({8,8})` violates the
balance-factor invariant: `emplace` runs `retrace_insert` even when the key
already exists, so the duplicate insert rotates the tree and leaves the leaf
node 5 with stored balance factor 1 whose actual height difference is 0. -/
theorem duplicate_insert_breaks_balance_invariant :
    Reach (emplace dupS2 8 8).1 ∧
    bf_invariant (emplace dupS2 8 8).1.root = false ∧
    bf_at (emplace dupS2 8 8).1.root 5 = some 1 ∧
    hdiff_at (emplace dupS2 8 8).1.root 5 = some 0 :=
  ⟨Reach.ins 8 8 (Reach.ins 8 8 (Reach.ins 5 5 Reach.init)), by decide, by decide, by decide⟩

/-- Claim C3 (code_bug evidence): inserting key 8 a second time returns the
flag `true` (not `false`), and far from being a no-op it restructures the
tree (the root changes from 5 to 8); `try_emplace` on the existing key also
returns `true`.  Size and the stored value are unchanged. -/
theorem duplicate_insert_not_noop :
    (emplace dupS2 8 8).2.2 = true ∧
    (emplace dupS2 8 8).2.1 = some 8 ∧
    (emplace dupS2 8 8).1.root ≠ dupS2.root ∧
    root_key dupS2.root = some 5 ∧
    root_key (emplace dupS2 8 8).1.root = some 8 ∧
    (emplace dupS2 8 8).1.sz = dupS2.sz ∧
    val_at (emplace dupS2 8 8).1.root 8 = some 8 ∧
    (try_emplace dupS2 8 99).2.2 = true ∧
    (try_emplace dupS2 8 99).1 = dupS2 := by
  decide

/-- Claim C4 (code_bug evidence): after inserting {6:7} and {8:9} and
index-assigning key 2 to 5, the tree holds 3 elements and the `_size`
counter is 3, but `size()` is declared `bool`, so it returns `true`, whose
integral value 1 is not 3. -/
theorem size_returns_bool_not_count :
    (keys scenarioC4.root).length = 3 ∧
    scenarioC4.sz = 3 ∧
    val_at scenarioC4.root 2 = some 5 ∧
    size scenarioC4 = true ∧
    size_as_nat scenarioC4 = 1 ∧
    size_as_nat scenarioC4 ≠ 3 := by
  decide

/-- Claim C5 (code_bug evidence): `clear()` resets the root and the size
counter but never touches the `_begin` cache, so after `insert({1,1});
clear()` the cache still names the destroyed node 1 instead of the
sentinel, and `begin() == end()` fails to hold. -/
theorem clear_leaves_begin_cache_dangling :
    scenarioC5.root = Tree.leaf ∧
    scenarioC5.sz = 0 ∧
    emptyQ scenarioC5 = true ∧
    scenarioC5.begin_cache = BeginPtr.atKey 1 ∧
    scenarioC5.begin_cache ≠ BeginPtr.sentinel := by
  decide

/-- Claim C6 (code_bug evidence): erasing key 1 from the valid AVL tree built
by inserting 10, 2, 20, 1, 4, 15, 25, 5 makes `retrace_erase` rotate at
node 2 and then stop, leaving the ancestor 10 with stored balance factor
−1 although its subtrees now have equal heights; the spec's walk, which
continues upward from the rotated subtree's new root
(`retrace_erase_spec`), restores balance factor 0 and the full invariant. -/
theorem retrace_erase_stops_after_rotation :
    Reach (erase eraseTree8 (some 1)).2 ∧
    bf_invariant eraseTree8.root = true ∧
    bf_at (erase eraseTree8 (some 1)).2.root 10 = some (-1) ∧
    hdiff_at (erase eraseTree8 (some 1)).2.root 10 = some 0 ∧
    bf_invariant (erase eraseTree8 (some 1)).2.root = false ∧
    bf_at (erase_spec eraseTree8 (some 1)).2.root 10 = some 0 ∧
    bf_invariant (erase_spec eraseTree8 (some 1)).2.root = true :=
  ⟨Reach.del 1
      (Reach.ins 5 5 (Reach.ins 25 25 (Reach.ins 15 15 (Reach.ins 4 4
        (Reach.ins 1 1 (Reach.ins 20 20 (Reach.ins 2 2 (Reach.ins 10 10 Reach.init))))))))
      (by decide),
   by decide, by decide, by decide, by decide, by decide, by decide⟩

/-- Claim C9 (counterexample): inserting keys 5, 8, 3, 4, 2, 1 in that order
produces in-order keys [1, 2, 3, 4, 5, 8], but the root holds key 3, not 4
as claimed: the final insertion triggers a single right rotation at the old
root 5, promoting 3. -/
theorem insert_sequence_root_is_not_4 :
    keys insertSeqC9.root = [1, 2, 3, 4, 5, 8] ∧
    root_key insertSeqC9.root ≠ some 4 := by
  decide

/-- Claim C9 (amended): inserting keys 5, 8, 3, 4, 2, 1 in that order
produces in-order keys [1, 2, 3, 4, 5, 8] and a root holding key 3, and the
resulting tree satisfies the balance invariant. -/
theorem insert_sequence_inorder_and_root :
    keys insertSeqC9.root = [1, 2, 3, 4, 5, 8] ∧
    root_key insertSeqC9.root = some 3 ∧
    bf_invariant insertSeqC9.root = true := by
  decide

/-- Claim C2: for every tree state reachable by any sequence of inserts and
erases through the public API, the in-order key sequence read from `begin()`
to `end()` is strictly increasing under the comparator, and each of the four
rotation patterns leaves the in-order key sequence unchanged. -/
theorem inorder_sorted_and_rotations_preserve_order :
    (∀ s : AVLState, Reach s → (keys s.root).Pairwise (· < ·)) ∧
    (∀ t : Tree, keys (rotate_subtree_left t) = keys t) ∧
    (∀ t : Tree, keys (rotate_subtree_right t) = keys t) ∧
    (∀ t : Tree, keys (rotate_subtree_right_left t) = keys t) ∧
    (∀ t : Tree, keys (rotate_subtree_left_right t) = keys t) :=
  ⟨reach_sorted, keys_rotate_left, keys_rotate_right, keys_rotate_right_left,
   keys_rotate_left_right⟩

/-- Witness for claim C2 at a concrete reachable state: insert 2, insert 1,
erase 1. -/
theorem inorder_sorted_witness :
    (keys (erase (emplace (emplace init 2 2).1 1 1).1 (some 1)).2.root).Pairwise
      (· < ·) :=
  inorder_sorted_and_rotations_preserve_order.1 _
    (Reach.del 1 (Reach.ins 1 1 (Reach.ins 2 2 Reach.init)) (by decide))

/-- Claim C7: `erase` at the `end()` position fails with the invalid-iterator
error and leaves the tree exactly as it was; `erase` at a valid non-end
position (a key present in the tree) succeeds, returns the in-order
successor of the erased element (the next key of the sorted sequence, or
`end()` when the maximum was erased), removes exactly that key, and
decrements the size counter. -/
theorem erase_end_fails_and_valid_erase_removes :
    (∀ s : AVLState, erase s none = (Except.error (), s)) ∧
    (∀ (s : AVLState) (k : Int), (keys s.root).Pairwise (· < ·) → k ∈ keys s.root →
      (erase s (some k)).1 = Except.ok (succ_of s.root k) ∧
      succ_of s.root k = listNext (keys s.root) k ∧
      keys (erase s (some k)).2.root = (keys s.root).erase k ∧
      (erase s (some k)).2.sz = s.sz - 1) := by
  constructor
  · intro s; rfl
  · intro s k h hm
    obtain ⟨t, c, n⟩ := s
    obtain ⟨h1, h2, h3⟩ := erase_valid t c n k h hm
    exact ⟨h1, succ_of_eq_listNext t k h hm, h2, h3⟩

/-- Witness for claim C7 at a concrete input: erasing key 3 from the tree
holding keys 1, 2, 3, 4, 5, 8. -/
theorem erase_contract_witness :
    (erase insertSeqC9 (some 3)).1 = Except.ok (succ_of insertSeqC9.root 3) ∧
    succ_of insertSeqC9.root 3 = listNext (keys insertSeqC9.root) 3 ∧
    keys (erase insertSeqC9 (some 3)).2.root = (keys insertSeqC9.root).erase 3 ∧
    (erase insertSeqC9 (some 3)).2.sz = insertSeqC9.sz - 1 :=
  erase_end_fails_and_valid_erase_removes.2 insertSeqC9 3 (by decide) (by decide)

/-- Claim C8 (theorem for the intended code): with the predecessor walk
modelled as the exact left/right mirror of the successor walk (resolving
the source's call to the nonexistent `largest_subtree_elt` as the
self-recursion of `greatest_subtree_elt`), decrementing an iterator at a
non-begin position lands on the in-order predecessor: the greatest element
of the left subtree when one exists, otherwise the first ancestor reached
through a right-child link, and decrementing `end()` lands on the maximum
element. -/
theorem iterator_prev_is_inorder_predecessor :
    (∀ (t : Tree) (k : Int), (keys t).Pairwise (· < ·) → k ∈ keys t →
      (keys t).head? ≠ some k →
      pred_of t (some k) = listPrev (keys t) k) ∧
    (∀ (l : Tree) (k v bf : Int) (r : Tree),
      pred_of (.node l k v bf r) none = (keys (.node l k v bf r)).getLast?) := by
  constructor
  · intro t k h hm _
    exact pred_of_eq_listPrev t k h hm
  · exact pred_of_end

/-- Witness for claim C8 at a concrete input: the predecessor of key 4 in the
tree holding keys 1, 2, 3, 4, 5, 8. -/
theorem iterator_prev_witness :
    pred_of insertSeqC9.root (some 4) = listPrev (keys insertSeqC9.root) 4 :=
  iterator_prev_is_inorder_predecessor.1 insertSeqC9.root 4
    (by decide) (by decide) (by decide)

/-- Claim C10 (code_bug evidence): `operator==` compares the trees' `size()`
values, which are `bool`-truncated, so the two-element tree {(1,1),(2,2)}
and the three-element tree {(1,1),(2,2),(3,3)} pass the size guard and the
pairwise loop stops at the left tree's end: the trees compare equal even
though their sizes and in-order payload sequences differ. -/
theorem tree_eq_ignores_size_difference :
    tree_eq eqL eqR = true ∧
    eqL.sz = 2 ∧
    eqR.sz = 3 ∧
    inorder eqL.root ≠ inorder eqR.root := by
  decide

end AVLT
